import Mathlib

/-!
Verification development for the phishing-domain discovery engine.

Domain names are modelled as `List Char` (the character sequence of the
Python `str`).  Python `set`s are modelled as duplicate-free lists; where
the code's behavior depends on the incidental iteration order of a set
(`list(variants)[:max_variants]`), the order is an explicit parameter
`enum`, constrained in theorems to be a permutation of the set's canonical
duplicate-free enumeration.  `str.lower()` is modelled by ASCII
`Char.toLower` and `str.strip()` by stripping the ASCII whitespace
characters; both agree with Python on all ASCII inputs and on every
non-ASCII character that Python maps to itself.
-/

namespace Phish

/-- Builds the full domain string `v ++ "." ++ tld` produced by the
Python f-string `f"{variant}.{tld}"` used by every variant operator. -/
def mkv (v : List Char) (tld : List Char) : List Char :=
  v ++ '.' :: tld

/-! ## src/generators/typosquat.py : TyposquatGenerator -/

/-- `TyposquatGenerator.COMMON_TLDS` (typosquat.py lines 9-13). -/
def COMMON_TLDS : List String :=
  ["com", "net", "org", "info", "co", "in", "co.in",
   "xyz", "top", "online", "site", "club", "live",
   "tech", "store", "website", "space", "pro"]

/-- `TyposquatGenerator.CHAR_SUBSTITUTIONS` (typosquat.py lines 16-26),
a dict from a lowercase character to its visually similar replacements
(each replacement is a single-character string in the source). -/
def CHAR_SUBSTITUTIONS : List (Char × List Char) :=
  [('a', ['@', '4']),
   ('e', ['3']),
   ('i', ['1', 'l', '!']),
   ('l', ['1', 'i']),
   ('o', ['0']),
   ('s', ['5', '$']),
   ('t', ['7']),
   ('g', ['9']),
   ('b', ['8'])]

/-- `TyposquatGenerator.KEYBOARD_ADJACENCY` (typosquat.py lines 29-37);
the value strings are kept verbatim, including the space inside `'edf t'`. -/
def KEYBOARD_ADJACENCY : List (Char × List Char) :=
  [('a', "sqwz".data), ('b', "vghn".data), ('c', "xdfv".data), ('d', "serfcx".data),
   ('e', "wsdr".data), ('f', "drtgvc".data), ('g', "ftyhhbv".data), ('h', "gyujnb".data),
   ('i', "ujko".data), ('j', "huikmn".data), ('k', "jiolm".data), ('l', "kop".data),
   ('m', "njk".data), ('n', "bhjm".data), ('o', "iklp".data), ('p', "ol".data),
   ('q', "wa".data), ('r', "edf t".data), ('s', "awedxz".data), ('t', "rfgy".data),
   ('u', "yhji".data), ('v', "cfgb".data), ('w', "qase".data), ('x', "zsdc".data),
   ('y', "tghu".data), ('z', "asx".data)]

/-- The local `homographs` dict of `_homograph_variants`
(typosquat.py lines 151-159). -/
def TYPO_HOMOGRAPHS : List (Char × List Char) :=
  [('o', ['0', 'ο', 'о']),
   ('a', ['а', 'α']),
   ('e', ['е', 'ε']),
   ('i', ['і', 'ι']),
   ('p', ['р', 'ρ']),
   ('c', ['с', 'ϲ']),
   ('y', ['у', 'γ'])]

/-- `tldextract.extract` output (typosquat.py lines 40-47); `tldextract`
is an external library, so the split is supplied as data, constrained in
each theorem to the actual split of the concrete seed under scrutiny. -/
structure DomainParts where
  subdomain : List Char
  domain : List Char
  suffix : List Char
deriving DecidableEq

/-- `_character_omission` (typosquat.py lines 92-99): drop the character
at each position, keeping results of length at least 3. -/
def character_omission (domain tld : List Char) : List (List Char) :=
  (List.range domain.length).filterMap fun i =>
    let v := domain.take i ++ domain.drop (i + 1)
    if 3 ≤ v.length then some (mkv v tld) else none

/-- `_character_repetition` (typosquat.py lines 101-107): double the
character at each position (`domain[:i] + domain[i] + domain[i:]`). -/
def character_repetition (domain tld : List Char) : List (List Char) :=
  (List.range domain.length).map fun i =>
    mkv (domain.take i ++ domain.getD i ' ' :: domain.drop i) tld

/-- Dict lookup on an association list (`d[k]` / `k in d`). -/
def assoc (k : Char) : List (Char × List Char) → Option (List Char)
  | [] => none
  | (k', v) :: rest => if k = k' then some v else assoc k rest

/-- `_character_substitution` (typosquat.py lines 109-117): replace each
character whose lowercase form is a `CHAR_SUBSTITUTIONS` key by each of
its replacements. -/
def character_substitution (domain tld : List Char) : List (List Char) :=
  (List.range domain.length).flatMap fun i =>
    match assoc ((domain.getD i ' ').toLower) CHAR_SUBSTITUTIONS with
    | none => []
    | some reps => reps.map fun r =>
        mkv (domain.take i ++ r :: domain.drop (i + 1)) tld

/-- The character pool `'abcdefghijklmnopqrstuvwxyz0123456789'` iterated
by `_character_insertion` (typosquat.py line 123). -/
def INSERT_CHARS : List Char :=
  "abcdefghijklmnopqrstuvwxyz0123456789".data

/-- `_character_insertion` (typosquat.py lines 119-127): insert every
lowercase letter and digit at every position, keeping labels of at most
63 characters.  Note the function receives no cap. -/
def character_insertion (domain tld : List Char) : List (List Char) :=
  (List.range (domain.length + 1)).flatMap fun i =>
    INSERT_CHARS.filterMap fun c =>
      let v := domain.take i ++ c :: domain.drop i
      if v.length ≤ 63 then some (mkv v tld) else none

/-- `_character_swap` (typosquat.py lines 129-137): swap each adjacent
pair of characters. -/
def character_swap (domain tld : List Char) : List (List Char) :=
  (List.range (domain.length - 1)).map fun i =>
    mkv (domain.take i ++ domain.getD (i + 1) ' ' :: domain.getD i ' ' :: domain.drop (i + 2)) tld

/-- `_keyboard_typos` (typosquat.py lines 139-147): replace each
character whose lowercase form is a `KEYBOARD_ADJACENCY` key by each
adjacent key. -/
def keyboard_typos (domain tld : List Char) : List (List Char) :=
  (List.range domain.length).flatMap fun i =>
    match assoc ((domain.getD i ' ').toLower) KEYBOARD_ADJACENCY with
    | none => []
    | some adjs => adjs.map fun a =>
        mkv (domain.take i ++ a :: domain.drop (i + 1)) tld

/-- `_homograph_variants` (typosquat.py lines 149-167): replace each
character whose lowercase form is a key of the local homograph dict by
each Unicode look-alike. -/
def homograph_variants (domain tld : List Char) : List (List Char) :=
  (List.range domain.length).flatMap fun i =>
    match assoc ((domain.getD i ' ').toLower) TYPO_HOMOGRAPHS with
    | none => []
    | some reps => reps.map fun r =>
        mkv (domain.take i ++ r :: domain.drop (i + 1)) tld

/-- `_tld_variations` (typosquat.py lines 169-174): re-suffix the
unchanged label with each entry of `COMMON_TLDS`. -/
def tld_variations (domain : List Char) : List (List Char) :=
  COMMON_TLDS.map fun tld => mkv domain tld.data

/-- `_hyphenation` (typosquat.py lines 176-182): insert `'-'` at each
internal position (1 to len-1). -/
def hyphenation (domain tld : List Char) : List (List Char) :=
  ((List.range domain.length).drop 1).map fun i =>
    mkv (domain.take i ++ '-' :: domain.drop i) tld

/-- The `prefixes` list of `_prefix_suffix` (typosquat.py line 186), as
character lists. -/
def AFFIX_PREFIXES : List (List Char) :=
  (["", "www", "secure", "login", "account", "verify", "update"] :
    List String).map String.data

/-- The `suffixes` list of `_prefix_suffix` (typosquat.py line 187), as
character lists. -/
def AFFIX_SUFFIXES : List (List Char) :=
  (["", "login", "secure", "online", "bank", "auth", "verify"] :
    List String).map String.data

/-- `'-'.join([x for x in [prefix, domain, suffix] if x])`
(typosquat.py lines 193-194). -/
def join_affix (p domain s : List Char) : List Char :=
  (([p, domain, s].filter (fun x => !x.isEmpty)).intersperse ['-']).flatten

/-- `_prefix_suffix` (typosquat.py lines 184-197): join the label with
each prefix/suffix combination, skipping the empty+empty pair. -/
def affix_variants (domain tld : List Char) : List (List Char) :=
  AFFIX_PREFIXES.flatMap fun p =>
    AFFIX_SUFFIXES.filterMap fun s =>
      if p.isEmpty && s.isEmpty then none
      else some (mkv (join_affix p domain s) tld)

/-- The multiset of strings fed into the Python set `variants` by the ten
`variants.update(...)` calls of `generate_all_variants` (typosquat.py
lines 49-84), in source order. -/
def variants_union (parts : DomainParts) : List (List Char) :=
  character_omission parts.domain parts.suffix ++
  character_repetition parts.domain parts.suffix ++
  character_substitution parts.domain parts.suffix ++
  character_insertion parts.domain parts.suffix ++
  character_swap parts.domain parts.suffix ++
  keyboard_typos parts.domain parts.suffix ++
  homograph_variants parts.domain parts.suffix ++
  tld_variations parts.domain ++
  hyphenation parts.domain parts.suffix ++
  affix_variants parts.domain parts.suffix

/-- The contents of the Python set `variants` before the cap is applied:
the union of the ten operators as a duplicate-free list (canonical
first-occurrence enumeration of the set). -/
def all_variants (parts : DomainParts) : List (List Char) :=
  (variants_union parts).dedup

/-- The cap step of `generate_all_variants` (typosquat.py lines 86-90):
`if len(variants) > max_variants: variants = set(list(variants)[:max_variants])`.
`enum` is the incidental iteration order of the Python set `variants`;
theorems constrain it to a permutation of `all_variants parts`. -/
def generate_all_variants (maxVariants : Nat) (enum : List (List Char)) : List (List Char) :=
  if maxVariants < enum.length then enum.take maxVariants else enum

example : mkv "ab".data "com".data ∈ tld_variations "ab".data := by decide

example : mkv "acmebank".data "com".data ∈ tld_variations "acmebank".data := by decide

/-! ## src/utils/validators.py -/

/-- The ASCII whitespace characters removed by `str.strip()` (Python also
strips the rare non-ASCII Unicode whitespace; the inputs of interest are
ASCII). -/
def isPySpace (c : Char) : Bool :=
  c == ' ' || c == '\t' || c == '\n' || c == '\r' || c == '\x0b' || c == '\x0c'

/-- `str.strip()`: drop leading and trailing whitespace. -/
def pyStrip (s : List Char) : List Char :=
  ((s.dropWhile isPySpace).reverse.dropWhile isPySpace).reverse

/-- `str.lower()`, modelled by ASCII `Char.toLower` (agrees with Python
on every ASCII character). -/
def pyLower (s : List Char) : List Char :=
  s.map Char.toLower

/-- `normalize_domain` (validators.py lines 33-37): `domain.strip().lower()`,
with the empty string mapped to itself (`if not domain: return ""`). -/
def normalize_domain (s : List Char) : List Char :=
  pyLower (pyStrip s)

/-- `str.split('.')`: split on dots; consecutive dots yield empty parts,
and the result is never the empty list. -/
def splitDots : List Char → List (List Char)
  | [] => [[]]
  | c :: rest =>
    if c = '.' then [] :: splitDots rest
    else
      match splitDots rest with
      | [] => [[c]]
      | p :: ps => (c :: p) :: ps

/-- One label of the domain regex (validators.py line 29):
`[a-zA-Z0-9](?:[a-zA-Z0-9-]{0,61}[a-zA-Z0-9])?` — length 1 to 63, first
and last characters alphanumeric, inner characters alphanumeric or `-`. -/
def isLabel : List Char → Bool
  | [] => false
  | c :: rest =>
    if rest.isEmpty then c.isAlphanum
    else
      c.isAlphanum && (c :: rest).length ≤ 63 &&
      rest.dropLast.all (fun x => x.isAlphanum || x == '-') &&
      (rest.getLastD ' ').isAlphanum

/-- The trailing TLD of the domain regex: `[a-zA-Z]{2,63}`. -/
def isTldPart (l : List Char) : Bool :=
  2 ≤ l.length && l.length ≤ 63 && l.all Char.isAlpha

/-- The anchored body of the regex
`^(?:[a-zA-Z0-9](?:[a-zA-Z0-9-]{0,61}[a-zA-Z0-9])?\.)+[a-zA-Z]{2,63}$`
(validators.py line 29): one or more labels each followed by `.`, then a
TLD.  Since neither labels nor the TLD may contain `.`, a string matches
exactly when splitting it on dots yields at least two parts, all but the
last being labels and the last a TLD. -/
def domain_regex_matches (s : List Char) : Bool :=
  2 ≤ (splitDots s).length &&
  (splitDots s).dropLast.all isLabel &&
  isTldPart ((splitDots s).getLastD [])

/-- The character classes admitted by the domain regex: ASCII letters,
digits, hyphen, dot. -/
def is_grammar_char (c : Char) : Bool :=
  c.isAlphanum || c == '-' || c == '.'

/-- `is_valid_domain` (validators.py lines 20-31): reject empty or
over-255-character strings, then `re.match` against the domain regex
(whose final `$` also accepts a single trailing newline). -/
def is_valid_domain (s : List Char) : Bool :=
  !s.isEmpty && s.length ≤ 255 &&
  (domain_regex_matches s ||
   (s.getLastD ' ' == '\n' && domain_regex_matches s.dropLast))

example : is_valid_domain "example.com".data = true := by decide
example : is_valid_domain "".data = false := by decide
example : is_valid_domain "example".data = false := by decide
example : is_valid_domain "ex..com".data = false := by decide
example : is_valid_domain "exаmple.com".data = false := by decide
example : normalize_domain " EXAMPLE.com ".data = "example.com".data := by decide

/-! ## src/crawlers/base_crawler.py : save_domain (DedupStore.save)

The persistent store is modelled by the list of `domain_name` column
values (unique by construction); `save_domain` (base_crawler.py lines
63-116) normalizes, validates, checks for a duplicate, and inserts. -/

/-- `BaseCrawler.save_domain`: returns the `(saved?, new store)` pair.
False is returned for invalid names and duplicates (and the store is
untouched). -/
def save_domain (store : List (List Char)) (input : List Char) : Bool × List (List Char) :=
  let name := normalize_domain input
  if !is_valid_domain name then (false, store)
  else if name ∈ store then (false, store)
  else (true, store ++ [name])

/-- Folding `save_domain` over a list of candidate names. -/
def save_all (store : List (List Char)) : List (List Char) → List (List Char)
  | [] => store
  | d :: ds => save_all (save_domain store d).2 ds

example : (save_domain [] "EXAMPLE.com".data).1 = true := by decide
example : (save_domain (save_domain [] "EXAMPLE.com".data).2 "example.com ".data).1 = false := by decide

/-! ## src/crawlers/whois_crawler.py : WHOISCrawler.crawl -/

/-- A target profile dict (`target_cse`); `name` and `primary_domain`
are the fields read by `WHOISCrawler.crawl`, and `additional_domains`
lists the target's other known-legitimate domains. -/
structure TargetCSE where
  name : String
  primary_domain : List Char
  additional_domains : List (List Char)
deriving DecidableEq

/-- A candidate record appended to `discovered` by `WHOISCrawler.crawl`
(whois_crawler.py lines 49-59). -/
structure Candidate where
  domain_name : List Char
  url : List Char
  target_cse_name : String
  target_cse_domain : List Char
  discovery_method : String
deriving DecidableEq

/-- The network environment seen by the crawler: whether a domain
resolves in DNS (`_domain_exists`).  The WHOIS lookup needs no oracle —
see `whois_get_whois_data`. -/
structure WhoisEnv where
  domain_exists : List Char → Bool

/-- `_get_whois_data` (whois_crawler.py lines 87-108): the first
statement of its `try` block is `time.sleep(1.2)` (line 90), but the
module never imports `time` (lines 1-7), so every call raises
`NameError`, which the blanket `except Exception` (line 106) catches:
the function returns `None` for every domain, in every environment.
The result is the parsed creation age (`none` = no data; `some age` =
data with `none` inside meaning an unknown creation date) — the `some`
outcomes are unreachable in this code. -/
def whois_get_whois_data (domain : List Char) : Option (Option Int) :=
  none

/-- `_is_recently_registered` (whois_crawler.py lines 123-140): unknown
or unparseable creation dates are flagged for review (treated as
recent); otherwise the age must be at most `days` (default 90). -/
def is_recently_registered (age : Option Int) (days : Int := 90) : Bool :=
  match age with
  | none => true
  | some d => d ≤ days

/-- `WHOISCrawler.crawl` (whois_crawler.py lines 22-66): generate up to
150 variants of the target's `primary_domain`, keep those that resolve
and whose WHOIS data marks them recently registered (or of unknown age),
and emit them as candidate records.  `enum` is the enumeration of the
variant set built by `generate_all_variants` on `primary_domain`.
Since `whois_get_whois_data` always returns `none` (unimported `time`),
the emission branch is dead and the crawl returns the empty list. -/
def whois_crawl (env : WhoisEnv) (target : TargetCSE)
    (enum : List (List Char)) : List Candidate :=
  (generate_all_variants 150 enum).filterMap fun v =>
    if env.domain_exists v then
      match whois_get_whois_data v with
      | some age =>
        if is_recently_registered age then
          some { domain_name := v
                 url := "http://".data ++ v
                 target_cse_name := target.name
                 target_cse_domain := target.primary_domain
                 discovery_method := "whois_typosquat" }
        else none
      | none => none
    else none

/-- The legitimate-domain filter implemented by every crawler except the
WHOIS one (e.g. `_is_legitimate_domain`, cert_transparency.py lines
140-148): the domain equals a legitimate entry or ends with `.` followed
by one. -/
def is_legitimate_domain (domain : List Char) (legitimate : List (List Char)) : Bool :=
  legitimate.any fun legit => domain == legit || (legit.length + 1 ≤ domain.length &&
    domain.drop (domain.length - (legit.length + 1)) == '.' :: legit)

example : is_legitimate_domain "acmebank.com".data ["acmebank.com".data] = true := by decide
example : is_legitimate_domain "secure.acmebank.com".data ["acmebank.com".data] = true := by decide
example : is_legitimate_domain "acme-bank.com".data ["acmebank.com".data] = false := by decide

/-! ## src/generators/idn_generator.py : IDNGenerator.generate_idn_variants -/

/-- `IDNGenerator.HOMOGRAPHS` (idn_generator.py lines 7-34).  Several
entries contain the ASCII key itself or another ASCII character. -/
def IDN_HOMOGRAPHS : List (Char × List Char) :=
  [('a', ['а', 'ɑ', 'α', 'ａ']),
   ('b', ['Ь', 'ᖯ', 'ｂ']),
   ('c', ['с', 'ϲ', 'ⅽ', 'ｃ']),
   ('d', ['ԁ', 'ⅾ', 'ｄ']),
   ('e', ['е', 'ė', 'ε', 'ｅ']),
   ('f', ['f', 'ｆ']),
   ('g', ['ɡ', 'ɢ', 'ｇ']),
   ('h', ['һ', 'Һ', 'ｈ']),
   ('i', ['і', 'ι', 'ⅰ', 'ｉ']),
   ('j', ['ј', 'ⅉ', 'ｊ']),
   ('k', ['κ', 'к', 'ｋ']),
   ('l', ['ⅼ', 'Ⅰ', 'ｌ']),
   ('m', ['m', 'ⅿ', 'ｍ']),
   ('n', ['n', 'ո', 'ｎ']),
   ('o', ['о', 'ο', 'σ', '০', 'ｏ']),
   ('p', ['р', 'ρ', 'ⲣ', 'ｐ']),
   ('q', ['q', 'ԛ', 'ｑ']),
   ('r', ['r', 'г', 'ｒ']),
   ('s', ['ѕ', 'ʂ', 'ｓ']),
   ('t', ['t', 'т', 'ｔ']),
   ('u', ['u', 'υ', 'ս', 'ｕ']),
   ('v', ['v', 'ν', 'ѵ', 'ｖ']),
   ('w', ['w', 'ԝ', 'ｗ']),
   ('x', ['x', 'х', 'ⅹ', 'ｘ']),
   ('y', ['y', 'у', 'ү', 'ｙ']),
   ('z', ['z', 'ᴢ', 'ｚ'])]

/-- `variants.add(v)` on a Python set modelled as a duplicate-free list
in insertion order. -/
def setAdd (s : List (List Char)) (v : List Char) : List (List Char) :=
  if v ∈ s then s else s ++ [v]

/-- Inner loop of the single-substitution pass (idn_generator.py lines
52-57): add each homograph variant, returning early (flag `true`) once
the set has reached `maxv` elements. -/
def idn_add_homographs (mk : Char → List Char) (hs : List Char) (maxv : Nat)
    (s : List (List Char)) : List (List Char) × Bool :=
  match hs with
  | [] => (s, false)
  | h :: rest =>
    let s' := setAdd s (mk h)
    if maxv ≤ s'.length then (s', true)
    else idn_add_homographs mk rest maxv s'

/-- Single-substitution pass (idn_generator.py lines 50-57) over the
positions `is`. -/
def idn_single_pass (name tld : List Char) (maxv : Nat)
    (s : List (List Char)) : List Nat → List (List Char) × Bool
  | [] => (s, false)
  | i :: rest =>
    match assoc ((name.getD i ' ').toLower) IDN_HOMOGRAPHS with
    | none => idn_single_pass name tld maxv s rest
    | some hs =>
      match idn_add_homographs
          (fun h => mkv (name.take i ++ h :: name.drop (i + 1)) tld) hs maxv s with
      | (s', true) => (s', true)
      | (s', false) => idn_single_pass name tld maxv s' rest

/-- Innermost loop of the double-substitution pass (idn_generator.py
lines 63-71): both replacement choices, each list capped to its first
two homographs. -/
def idn_add_pairs (mk : Char → Char → List Char) (h1s h2s : List Char) (maxv : Nat)
    (s : List (List Char)) : List (List Char) × Bool :=
  match h1s with
  | [] => (s, false)
  | h1 :: rest =>
    match idn_add_homographs (fun h2 => mk h1 h2) h2s maxv s with
    | (s', true) => (s', true)
    | (s', false) => idn_add_pairs mk rest h2s maxv s'

/-- Double-substitution pass (idn_generator.py lines 60-71) over the
position pairs `ijs` (each `j` ranges over `i+1 ≤ j < min (i+3) len`). -/
def idn_double_pass (name tld : List Char) (maxv : Nat)
    (s : List (List Char)) : List (Nat × Nat) → List (List Char) × Bool
  | [] => (s, false)
  | (i, j) :: rest =>
    match assoc ((name.getD i ' ').toLower) IDN_HOMOGRAPHS,
          assoc ((name.getD j ' ').toLower) IDN_HOMOGRAPHS with
    | some h1s, some h2s =>
      match idn_add_pairs
          (fun h1 h2 => mkv (name.take i ++ h1 :: (name.drop (i + 1)).take (j - i - 1)
                              ++ h2 :: name.drop (j + 1)) tld)
          (h1s.take 2) (h2s.take 2) maxv s with
      | (s', true) => (s', true)
      | (s', false) => idn_double_pass name tld maxv s' rest
    | _, _ => idn_double_pass name tld maxv s rest

/-- The position pairs `(i, j)` with `i < len` and `i+1 ≤ j < min (i+3) len`
(idn_generator.py lines 60-61). -/
def idn_pairs (len : Nat) : List (Nat × Nat) :=
  (List.range len).flatMap fun i =>
    ((List.range (min (i + 3) len)).drop (i + 1)).map fun j => (i, j)

/-- `IDNGenerator.generate_idn_variants` (idn_generator.py lines 37-73):
split on dots; with fewer than two parts return the empty set; otherwise
run the single- then the double-substitution pass, stopping as soon as
the set holds `max_variants` elements. -/
def generate_idn_variants (domain : List Char) (max_variants : Nat := 100) : List (List Char) :=
  let parts := splitDots domain
  if parts.length < 2 then []
  else
    let name := parts.getD 0 []
    let tld := ((parts.drop 1).intersperse ['.']).flatten
    match idn_single_pass name tld max_variants [] (List.range name.length) with
    | (s, true) => s
    | (s, false) => (idn_double_pass name tld max_variants s (idn_pairs name.length)).1

example : "fm.com".data ∈ generate_idn_variants "fm.com".data := by decide
example : (save_domain [] "fm.com".data).1 = true := by decide

/-! ## src/utils/rate_limiter.py : RateLimiter

Wall-clock instants are rationals; `time.sleep` is modelled as exact
(waking at precisely the requested instant), which matches the
sliding-window arithmetic of the code.  The single lock makes `enter`
atomic, so it is a pure state transformer. -/

/-- `RateLimiter.__enter__` (rate_limiter.py lines 15-33): drop
timestamps older than `period`, sleep until the oldest in-window call
expires when the window is full, then record the (possibly postponed)
current time.  Returns `none` exactly when the Python code would raise
`IndexError` on `self.timestamps[0]` (only reachable with `calls = 0`). -/
def rl_enter (calls : Nat) (period : ℚ) (timestamps : List ℚ) (now : ℚ) :
    Option (List ℚ × ℚ) :=
  let ts := timestamps.filter fun t => now - t < period
  if calls ≤ ts.length then
    match ts.head? with
    | none => none
    | some oldest =>
      let sleep_time := period - (now - oldest)
      let now' := if 0 < sleep_time then now + sleep_time else now
      some (ts ++ [now'], now')
  else some (ts ++ [now], now)

example : rl_enter 1 10 [0] 5 = some ([0, 10], 10) := by
  simp [rl_enter]
  norm_num

/-! ## src/crawlers/cert_transparency.py : CertTransparencyCrawler -/

/-- The crawler state fields touched by the retry loop. -/
structure CTState where
  retry_count : Nat
  stop_monitoring : Bool
deriving DecidableEq

/-- The retry loop of `_monitor_ct_logs` (cert_transparency.py lines
117-138) on the path where every connection attempt raises: starting
from `retry_count`, repeat while `retry_count < max_retries` and the
stop flag is clear; each failed attempt increments `retry_count`, then
either sleeps `5 * retry_count` seconds before retrying or, when the
retry budget is exhausted, sets `stop_monitoring` and exits.  Returns
the recorded sleep durations and the final state.  The fuel argument
dominates `max_retries - retry_count`, making the recursion structural. -/
def ct_retry_loop (fuel : Nat) (max_retries : Nat) (st : CTState)
    (sleeps : List Nat) : List Nat × CTState :=
  match fuel with
  | 0 => (sleeps, st)
  | fuel + 1 =>
    if st.retry_count < max_retries ∧ st.stop_monitoring = false then
      let rc := st.retry_count + 1
      if rc < max_retries then
        ct_retry_loop fuel max_retries ⟨rc, false⟩ (sleeps ++ [5 * rc])
      else (sleeps, ⟨rc, true⟩)
    else (sleeps, st)

/-- `_monitor_ct_logs` with every connection attempt failing, from the
initial state (`retry_count = 0`, flag clear, `__init__` lines 19-22). -/
def ct_monitor_all_fail (max_retries : Nat) : List Nat × CTState :=
  ct_retry_loop (max_retries + 1) max_retries ⟨0, false⟩ []

/-- The condition of the consumer loop of `crawl` (cert_transparency.py
line 42): `(datetime.now() - start_time).seconds < self.monitoring_duration
and not timeout`.  It takes the crawler state, but reads neither field:
the consumer loop never observes `stop_monitoring`. -/
def ct_consumer_continues (st : CTState) (elapsed_seconds monitoring_duration : Nat)
    (timeout : Bool) : Bool :=
  decide (elapsed_seconds < monitoring_duration) && !timeout

example : ct_monitor_all_fail 3 = ([5, 10], ⟨3, true⟩) := by decide
example : ct_consumer_continues ⟨3, true⟩ 60 300 false = true := by decide

/-! ## src/crawlers/base_crawler.py : run (SourceRunner) -/

/-- One target profile dict together with the outcome of `self.crawl`
on it: `name` is `none` when the dict lacks the `'name'` key (so
`cse['name']` on base_crawler.py line 133 — outside the per-target
`try` — raises `KeyError`), and `crawl_result` is `.error e` when
`self.crawl(cse)` raises. -/
structure MTarget where
  name : Option String
  crawl_result : Except String (List (List Char))

/-- `true` exactly when `self.crawl(cse)` raised for this target. -/
def crawl_failed (t : MTarget) : Bool :=
  match t.crawl_result with
  | .error _ => true
  | .ok _ => false

/-- The finalized `CrawlerLog` fields written by `end_logging`
(base_crawler.py lines 34-48). -/
structure RunLogFinal where
  status : String
  domains_discovered : Nat
  errors_encountered : Nat
deriving DecidableEq

/-- The summary dict returned by `run` (base_crawler.py lines 154-159). -/
structure RunSummary where
  domains_found : Nat
  cses_processed : Nat
  errors : Nat
deriving DecidableEq

/-- Save every candidate of one crawl result (base_crawler.py lines
139-140), threading the store and counting the successfully saved
domains (`self.domains_found`). -/
def save_candidates (store : List (List Char)) (found : Nat) :
    List (List Char) → List (List Char) × Nat
  | [] => (store, found)
  | d :: ds =>
    let r := save_domain store d
    save_candidates r.2 (if r.1 then found + 1 else found) ds

/-- The per-target loop of `run` (base_crawler.py lines 132-145):
a missing `'name'` key raises out of the loop (`.error`); a crawl
exception is caught and appended to `errors`; candidates are saved. -/
def run_loop (store : List (List Char)) (found : Nat) (errors : List String) :
    List MTarget → Except (String × Nat) (List (List Char) × Nat × List String)
  | [] => .ok (store, found, errors)
  | t :: ts =>
    match t.name with
    | none => .error ("KeyError: name", found)
    | some n =>
      match t.crawl_result with
      | .error e =>
        run_loop store found (errors ++ ["Error crawling " ++ n ++ ": " ++ e]) ts
      | .ok ds =>
        let r := save_candidates store found ds
        run_loop r.1 r.2 errors ts

/-- `BaseCrawler.run` (base_crawler.py lines 118-159): on normal
completion of the per-target loop the log is finalized `completed` with
the domain and error counts and the summary dict is returned; an
exception escaping the loop finalizes the log `failed` (with that single
error recorded) and is re-raised (`.error`). -/
def crawler_run (targets : List MTarget) :
    Except (String × RunLogFinal) (RunSummary × RunLogFinal) :=
  match run_loop [] 0 [] targets with
  | .ok (_, found, errors) =>
    .ok ({ domains_found := found, cses_processed := targets.length,
           errors := errors.length },
         { status := "completed", domains_discovered := found,
           errors_encountered := errors.length })
  | .error (e, found) =>
    .error (e, { status := "failed", domains_discovered := found,
                 errors_encountered := 1 })

/-! ## Concrete instances used by counterexamples -/

/-- The `tldextract` split of the seed `acmebank.com`:
no subdomain, label `acmebank`, public suffix `com`. -/
def acmeParts : DomainParts :=
  ⟨[], "acmebank".data, "com".data⟩

/-- The `tldextract` split of the seed `x.com`: no subdomain, label
`x`, public suffix `com`. -/
def xParts : DomainParts :=
  ⟨[], "x".data, "com".data⟩

/-- The target profile of the claim's end-to-end scenario:
`{name: "Acme Bank", primary_domain: "acmebank.com", additional_domains: []}`. -/
def acmeTarget : TargetCSE :=
  ⟨"Acme Bank", "acmebank.com".data, []⟩

/-! ## Theorems -/

/-- Claim C5: for every seed domain and cap, the set returned by
`generate_all_variants` holds at most `max_variants` strings.  `enum` is
the iteration order of the variant set of the seed's parts (duplicate
free, same members as the operator union); the result stays duplicate
free and its length — the cardinality of the returned set — is at most
the cap. -/
theorem C5_generate_le_max (parts : DomainParts) (maxVariants : Nat)
    (enum : List (List Char)) (h1 : enum.Nodup)
    (h2 : ∀ x, x ∈ enum ↔ x ∈ variants_union parts) :
    (generate_all_variants maxVariants enum).Nodup ∧
    (generate_all_variants maxVariants enum).length ≤ maxVariants := by
  unfold generate_all_variants
  split
  · exact ⟨h1.sublist (List.take_sublist _ _), by
      simpa [List.length_take] using Nat.min_le_left maxVariants enum.length⟩
  · exact ⟨h1, by omega⟩

/-- Witness for C5 at the seed `x.com` (parts `("", "x", "com")`) with
cap 10, the enumeration being the canonical one. -/
theorem C5_witness :
    (generate_all_variants 10 (all_variants ⟨[], "x".data, "com".data⟩)).Nodup ∧
    (generate_all_variants 10 (all_variants ⟨[], "x".data, "com".data⟩)).length ≤ 10 :=
  C5_generate_le_max ⟨[], "x".data, "com".data⟩ 10 _
    (List.nodup_dedup _) (fun _ => List.mem_dedup)

/-- Claim C3: `save_domain` is idempotent on the normalized key.  If the
normalization of `d1` is a valid domain not yet stored, saving `d1`
returns `true` and inserts the key; the key survives every further save;
and every later save of any string with the same normalization returns
`false` and leaves the store unchanged. -/
theorem C3_save_idempotent (store : List (List Char)) (d1 : List Char)
    (hvalid : is_valid_domain (normalize_domain d1) = true)
    (hnew : normalize_domain d1 ∉ store) :
    (save_domain store d1).1 = true ∧
    (save_domain store d1).2 = store ++ [normalize_domain d1] ∧
    normalize_domain d1 ∈ (save_domain store d1).2 ∧
    (∀ store2 d, normalize_domain d1 ∈ store2 →
      normalize_domain d1 ∈ (save_domain store2 d).2) ∧
    (∀ store2 d2, normalize_domain d2 = normalize_domain d1 →
      normalize_domain d1 ∈ store2 → save_domain store2 d2 = (false, store2)) := by
  have h1 : save_domain store d1 = (true, store ++ [normalize_domain d1]) := by
    simp [save_domain, hvalid, hnew]
  refine ⟨by rw [h1], by rw [h1], by rw [h1]; simp, ?_, ?_⟩
  · intro store2 d hmem
    rw [save_domain]
    split
    · exact hmem
    · split
      · exact hmem
      · exact List.mem_append_left _ hmem
  · intro store2 d2 hkey hmem
    simp [save_domain, hkey, hmem]

/-- Witness for C3: saving `"EXAMPLE.com"` into the empty store, then
`"example.com "`; both normalize to `example.com` and the second save is
reported as a duplicate that leaves the store unchanged. -/
theorem C3_witness :
    (save_domain [] "EXAMPLE.com".data).1 = true ∧
    save_domain (save_domain [] "EXAMPLE.com".data).2 "example.com ".data =
      (false, (save_domain [] "EXAMPLE.com".data).2) := by
  have h := C3_save_idempotent [] "EXAMPLE.com".data (by decide) (by simp)
  exact ⟨h.1, h.2.2.2.2 (save_domain [] "EXAMPLE.com".data).2 "example.com ".data
    (by decide) h.2.2.1⟩

/-- The final `retry_count` never exceeds `max_retries`. -/
theorem ct_retry_loop_count_le (fuel max_retries : Nat) (st : CTState)
    (sleeps : List Nat) (h : st.retry_count ≤ max_retries) :
    (ct_retry_loop fuel max_retries st sleeps).2.retry_count ≤ max_retries := by
  induction fuel generalizing st sleeps with
  | zero => exact h
  | succ n ih =>
    unfold ct_retry_loop
    by_cases hcond : st.retry_count < max_retries ∧ st.stop_monitoring = false
    · rw [if_pos hcond]
      obtain ⟨hlt, -⟩ := hcond
      dsimp only
      by_cases hrc : st.retry_count + 1 < max_retries
      · rw [if_pos hrc]
        exact ih _ _ (Nat.le_of_lt hrc)
      · rw [if_neg hrc]
        show st.retry_count + 1 ≤ max_retries
        omega
    · rw [if_neg hcond]
      exact h

/-- Claim C9, counterexample to "the stop flag is observed by both the
subscriber and the consumer loop": with the shipped `max_retries = 3`,
exhausting the retries does set `stop_monitoring`, yet the consumer
loop's continue condition still evaluates to `true` in a state with the
flag set (60 s elapsed of the 300 s window, no inactivity timeout) —
the condition on cert_transparency.py line 42 never reads the flag. -/
theorem C9_counterexample :
    ct_monitor_all_fail 3 = ([5, 10], ⟨3, true⟩) ∧
    ct_consumer_continues ⟨3, true⟩ 60 300 false = true := by
  constructor <;> decide

/-- Claim C9 as amended: the subscriber retries at most `max_retries`
times and observes the stop flag (a set flag ends the retry loop
immediately); with the shipped `max_retries = 3` the backoff delays are
5 s then 10 s (each delay `5*k` after the k-th failure, doubling here)
and exhaustion sets the stop flag; but the consumer loop's continue
condition is insensitive to the crawler state carrying the flag. -/
theorem C9_amended :
    (∀ max_retries : Nat, (ct_monitor_all_fail max_retries).2.retry_count ≤ max_retries) ∧
    ct_monitor_all_fail 3 = ([5, 10], ⟨3, true⟩) ∧
    (∀ fuel max_retries st sleeps, st.stop_monitoring = true →
      ct_retry_loop fuel max_retries st sleeps = (sleeps, st)) ∧
    (∀ st st' elapsed duration timeout,
      ct_consumer_continues st elapsed duration timeout =
      ct_consumer_continues st' elapsed duration timeout) := by
  refine ⟨?_, by decide, ?_, fun _ _ _ _ _ => rfl⟩
  · intro m
    exact ct_retry_loop_count_le _ m ⟨0, false⟩ [] (Nat.zero_le m)
  · intro fuel max_retries st sleeps h
    cases fuel with
    | zero => rfl
    | succ n =>
      unfold ct_retry_loop
      rw [if_neg]
      simp [h]

/-- Witness for C9 (amended): the subscriber loop run from a state with
the stop flag already set exits at once, and the bound instantiates at
the shipped configuration. -/
theorem C9_witness :
    ct_retry_loop 2 3 ⟨1, true⟩ [] = ([], ⟨1, true⟩) ∧
    (ct_monitor_all_fail 3).2.retry_count ≤ 3 :=
  ⟨C9_amended.2.2.1 2 3 ⟨1, true⟩ [] rfl, C9_amended.1 3⟩

/-- When every target dict carries a `'name'` key, the per-target loop
completes, collecting one error message per raising crawl. -/
theorem run_loop_completes (targets : List MTarget) (store : List (List Char))
    (found : Nat) (errors : List String)
    (h : ∀ t ∈ targets, t.name.isSome = true) :
    ∃ store' found' msgs,
      run_loop store found errors targets = .ok (store', found', errors ++ msgs) ∧
      msgs.length = (targets.filter crawl_failed).length := by
  induction targets generalizing store found errors with
  | nil => exact ⟨store, found, [], by simp [run_loop], by simp⟩
  | cons t ts ih =>
    have hname := h t (List.mem_cons_self t ts)
    obtain ⟨n, hn⟩ := Option.isSome_iff_exists.mp hname
    have hts : ∀ t' ∈ ts, t'.name.isSome = true :=
      fun t' ht' => h t' (List.mem_cons_of_mem t ht')
    cases hres : t.crawl_result with
    | error e =>
      obtain ⟨store', found', msgs, hrun, hlen⟩ :=
        ih store found (errors ++ ["Error crawling " ++ n ++ ": " ++ e]) hts
      refine ⟨store', found', ("Error crawling " ++ n ++ ": " ++ e) :: msgs, ?_, ?_⟩
      · simp only [run_loop, hn, hres]
        rw [hrun, List.append_assoc]
        rfl
      · simp [crawl_failed, hres, hlen]
    | ok ds =>
      obtain ⟨store', found', msgs, hrun, hlen⟩ :=
        ih (save_candidates store found ds).1 (save_candidates store found ds).2 errors hts
      refine ⟨store', found', msgs, ?_, ?_⟩
      · simp only [run_loop, hn, hres]
        exact hrun
      · simp [crawl_failed, hres, hlen]

/-- A target dict without a `'name'` key makes the per-target loop raise. -/
theorem run_loop_raises (targets : List MTarget) (store : List (List Char))
    (found : Nat) (errors : List String)
    (h : ∃ t ∈ targets, t.name = none) :
    ∃ f, run_loop store found errors targets = .error ("KeyError: name", f) := by
  induction targets generalizing store found errors with
  | nil => simp at h
  | cons t ts ih =>
    cases hn : t.name with
    | none => exact ⟨found, by simp [run_loop, hn]⟩
    | some n =>
      obtain ⟨t', ht', hnone⟩ := h
      rcases List.mem_cons.mp ht' with rfl | hmem
      · rw [hn] at hnone; exact absurd hnone (by simp)
      · cases hres : t.crawl_result with
        | error e =>
          obtain ⟨f, hf⟩ := ih store found
            (errors ++ ["Error crawling " ++ n ++ ": " ++ e]) ⟨t', hmem, hnone⟩
          exact ⟨f, by simp only [run_loop, hn, hres]; exact hf⟩
        | ok ds =>
          obtain ⟨f, hf⟩ := ih (save_candidates store found ds).1
            (save_candidates store found ds).2 errors ⟨t', hmem, hnone⟩
          exact ⟨f, by simp only [run_loop, hn, hres]; exact hf⟩

/-- Claim C4: an exception while crawling one target is caught, recorded
in the error list, and does not stop the remaining targets — the run
finalizes `completed`, counting the domains found and one error per
failed target; only an exception escaping the per-target loop itself (a
malformed target raising `KeyError` at `cse['name']`) finalizes the log
as `failed` and is re-raised to the caller. -/
theorem C4_run_error_isolation :
    (∀ targets : List MTarget, (∀ t ∈ targets, t.name.isSome = true) →
      ∃ summary log, crawler_run targets = .ok (summary, log) ∧
        log.status = "completed" ∧
        summary.cses_processed = targets.length ∧
        log.errors_encountered = (targets.filter crawl_failed).length ∧
        summary.errors = log.errors_encountered ∧
        summary.domains_found = log.domains_discovered) ∧
    (∀ targets : List MTarget, (∃ t ∈ targets, t.name = none) →
      ∃ e log, crawler_run targets = .error (e, log) ∧ log.status = "failed") := by
  constructor
  · intro targets h
    obtain ⟨store', found', msgs, hrun, hlen⟩ := run_loop_completes targets [] 0 [] h
    rw [List.nil_append] at hrun
    refine ⟨{ domains_found := found', cses_processed := targets.length,
              errors := msgs.length },
            { status := "completed", domains_discovered := found',
              errors_encountered := msgs.length }, ?_, rfl, rfl, hlen, rfl, rfl⟩
    unfold crawler_run
    rw [hrun]
  · intro targets h
    obtain ⟨f, hf⟩ := run_loop_raises targets [] 0 [] h
    refine ⟨"KeyError: name",
            { status := "failed", domains_discovered := f, errors_encountered := 1 },
            ?_, rfl⟩
    unfold crawler_run
    rw [hf]

/-- Witness for C4: a run over one succeeding and one raising target
completes with one recorded error, and a run over a malformed target
finalizes as failed. -/
theorem C4_witness :
    (∃ summary log,
      crawler_run [⟨some "Acme", .ok ["example.com".data]⟩, ⟨some "Beta", .error "boom"⟩] =
        .ok (summary, log) ∧
      log.status = "completed" ∧
      summary.cses_processed = 2 ∧
      log.errors_encountered =
        ([⟨some "Acme", .ok ["example.com".data]⟩,
          (⟨some "Beta", .error "boom"⟩ : MTarget)].filter crawl_failed).length ∧
      summary.errors = log.errors_encountered ∧
      summary.domains_found = log.domains_discovered) ∧
    (∃ e log, crawler_run [⟨none, .ok []⟩] = .error (e, log) ∧ log.status = "failed") :=
  ⟨C4_run_error_isolation.1 _ (by intro t ht; fin_cases ht <;> rfl),
   C4_run_error_isolation.2 _ ⟨⟨none, .ok []⟩, by simp, rfl⟩⟩

/-- A filtered singleton has at most one element. -/
theorem filter_singleton_length_le {α : Type} (p : α → Bool) (x : α) :
    (List.filter p [x]).length ≤ 1 := by
  rcases Bool.dichotomy (p x) with h | h <;> simp [List.filter_singleton, h]

/-- Claim C6: `RateLimiter.__enter__` preserves the invariant "at most
`calls` recorded timestamps lie within the last `period` seconds".
Provided `calls` and `period` are positive and the invariant holds for
the current time, entering succeeds (no `IndexError`), possibly sleeps,
and the recorded list — the surviving window entries plus the new entry
timestamp — satisfies the invariant at the post-entry time. -/
theorem C6_rate_limiter_invariant (calls : Nat) (period : ℚ) (ts : List ℚ) (now : ℚ)
    (hcalls : 0 < calls) (hperiod : 0 < period)
    (hinv : (ts.filter fun t => now - t < period).length ≤ calls) :
    ∃ ts' now', rl_enter calls period ts now = some (ts', now') ∧
      ts' = (ts.filter fun t => now - t < period) ++ [now'] ∧
      (ts'.filter fun t => now' - t < period).length ≤ calls := by
  by_cases hc : calls ≤ (ts.filter fun t => now - t < period).length
  · have hlen : (ts.filter fun t => now - t < period).length = calls :=
      le_antisymm hinv hc
    obtain ⟨oldest, tail, hF⟩ :
        ∃ o tl, (ts.filter fun t => now - t < period) = o :: tl := by
      cases hFc : ts.filter fun t => now - t < period with
      | nil => rw [hFc] at hlen; simp at hlen; omega
      | cons o tl => exact ⟨o, tl, rfl⟩
    have holdest : now - oldest < period := by
      have hmem : oldest ∈ ts.filter fun t => now - t < period := by
        rw [hF]; exact List.mem_cons_self _ _
      exact of_decide_eq_true (List.mem_filter.mp hmem).2
    have hsleep : 0 < period - (now - oldest) := by linarith
    refine ⟨(ts.filter fun t => now - t < period) ++ [now + (period - (now - oldest))],
            now + (period - (now - oldest)), ?_, rfl, ?_⟩
    · unfold rl_enter
      rw [if_pos hc, hF]
      simp only [List.head?_cons, if_pos hsleep]
    · rw [List.filter_append, hF]
      have hdrop : ¬ (now + (period - (now - oldest)) - oldest < period) := by
        have heq : now + (period - (now - oldest)) - oldest = period := by ring_nf
        rw [heq]
        exact lt_irrefl period
      rw [List.filter_cons_of_neg (by simpa using hdrop)]
      have h1 : (tail.filter fun t => now + (period - (now - oldest)) - t < period).length ≤
          tail.length := List.length_filter_le _ _
      have h2 : (oldest :: tail).length = calls := by rw [← hF]; exact hlen
      simp only [List.length_cons] at h2
      rw [List.length_append]
      have h3 := filter_singleton_length_le
        (fun t => decide (now + (period - (now - oldest)) - t < period))
        (now + (period - (now - oldest)))
      omega
  · push_neg at hc
    refine ⟨(ts.filter fun t => now - t < period) ++ [now], now, ?_, rfl, ?_⟩
    · unfold rl_enter
      rw [if_neg (by omega)]
    · rw [List.filter_append]
      have heq : (ts.filter fun t => now - t < period).filter
          (fun t => decide (now - t < period)) = ts.filter fun t => now - t < period :=
        List.filter_eq_self.mpr fun a ha => (List.mem_filter.mp ha).2
      rw [heq, List.length_append]
      have h3 := filter_singleton_length_le (fun t => decide (now - t < period)) now
      omega

/-- Witness for C6: one call per 10 seconds, one timestamp at 0, entry
at time 5 — the limiter sleeps to time 10 and the window then holds one
entry. -/
theorem C6_witness :
    ∃ ts' now', rl_enter 1 10 [0] 5 = some (ts', now') ∧
      ts' = (([0] : List ℚ).filter fun t => (5 : ℚ) - t < 10) ++ [now'] ∧
      (ts'.filter fun t => now' - t < 10).length ≤ 1 :=
  C6_rate_limiter_invariant 1 10 [0] 5 (by norm_num) (by norm_num)
    (by norm_num [List.filter])

/-! ### Structural lemmas for the variant operators -/

/-- Two variants with the same TLD are equal only if their labels are. -/
theorem mkv_same_eq {v L t : List Char} (h : mkv v t = mkv L t) : v = L :=
  List.append_inj_left' h rfl

/-- Two variants with the same label are equal only if their TLDs are. -/
theorem mkv_tld_eq {L t S : List Char} (h : mkv L t = mkv L S) : t = S := by
  have h' := (List.append_right_inj L).mp h
  exact (List.cons_eq_cons.mp h').2

/-- `l.getD i d` is `l[i]` within bounds. -/
theorem getD_eq_of_lt {l : List Char} {i : Nat} (d : Char) (h : i < l.length) :
    l.getD i d = l[i] := by
  simp [List.getD_eq_getElem?_getD, List.getElem?_eq_getElem h]

/-- Splitting a list at an in-bounds position. -/
theorem decomp_at {L : List Char} {i : Nat} (h : i < L.length) :
    L = L.take i ++ L[i] :: L.drop (i + 1) := by
  conv_lhs => rw [← List.take_append_drop i L]
  rw [List.drop_eq_getElem_cons h]

/-- Splitting a list at two adjacent in-bounds positions. -/
theorem decomp_at2 {L : List Char} {i : Nat} (h : i + 1 < L.length) :
    L = L.take i ++ L[i] :: L[i + 1] :: L.drop (i + 2) := by
  conv_lhs => rw [decomp_at (Nat.lt_of_succ_lt h)]
  rw [List.drop_eq_getElem_cons h]

/-- Successful dict lookup means the pair is in the table. -/
theorem assoc_mem {k : Char} {tbl : List (Char × List Char)} {v : List Char}
    (h : assoc k tbl = some v) : (k, v) ∈ tbl := by
  induction tbl with
  | nil => simp [assoc] at h
  | cons p rest ih =>
    obtain ⟨k', v'⟩ := p
    rw [assoc] at h
    split at h
    · next heq =>
      obtain rfl := Option.some.inj h
      subst heq
      exact List.mem_cons_self _ _
    · exact List.mem_cons_of_mem _ (ih h)

/-- No substitution table replacement lowercases back to its own key. -/
theorem char_subs_ne : ∀ p ∈ CHAR_SUBSTITUTIONS, ∀ r ∈ p.2, r.toLower ≠ p.1 := by
  decide

/-- No keyboard adjacency replacement lowercases back to its own key. -/
theorem keyboard_ne : ∀ p ∈ KEYBOARD_ADJACENCY, ∀ r ∈ p.2, r.toLower ≠ p.1 := by
  decide

/-- No homograph replacement lowercases back to its own key. -/
theorem typo_homograph_ne : ∀ p ∈ TYPO_HOMOGRAPHS, ∀ r ∈ p.2, r.toLower ≠ p.1 := by
  decide

/-- A replacement drawn from the table entry of `L[i]` differs from
`L[i]` itself, for each of the three per-character lookup tables. -/
theorem table_replacement_ne {tbl : List (Char × List Char)}
    (hfact : ∀ p ∈ tbl, ∀ r ∈ p.2, r.toLower ≠ p.1)
    {L : List Char} {i : Nat} (h : i < L.length) {reps : List Char}
    (hassoc : assoc ((L.getD i ' ').toLower) tbl = some reps)
    {r : Char} (hr : r ∈ reps) : r ≠ L[i] := by
  intro hcontra
  have hkey := assoc_mem hassoc
  have := hfact _ hkey r hr
  rw [getD_eq_of_lt ' ' h] at this
  rw [hcontra] at this
  exact this rfl

/-- A same-length single-position replacement that changes the character
cannot reproduce the original list. -/
theorem replace_at_ne {L : List Char} {i : Nat} (h : i < L.length) {r : Char}
    (hne : r ≠ L[i]) : L.take i ++ r :: L.drop (i + 1) ≠ L := by
  intro hcontra
  nth_rewrite 3 [decomp_at h] at hcontra
  have h2 := (List.append_right_inj (L.take i)).mp hcontra
  exact hne (List.cons_eq_cons.mp h2).1

/-- Omission shortens the label, so it cannot reproduce the seed. -/
theorem seed_not_omission (L S : List Char) : mkv L S ∉ character_omission L S := by
  intro h
  simp only [character_omission, List.mem_filterMap, List.mem_range] at h
  obtain ⟨i, hi, hf⟩ := h
  split at hf
  · have hv := mkv_same_eq (Option.some.inj hf)
    have hlen := congrArg List.length hv
    simp only [List.length_append, List.length_take, List.length_drop] at hlen
    omega
  · exact Option.noConfusion hf

/-- Repetition lengthens the label, so it cannot reproduce the seed. -/
theorem seed_not_repetition (L S : List Char) : mkv L S ∉ character_repetition L S := by
  intro h
  simp only [character_repetition, List.mem_map, List.mem_range] at h
  obtain ⟨i, hi, hf⟩ := h
  have hv := mkv_same_eq hf
  have hlen := congrArg List.length hv
  simp only [List.length_append, List.length_take, List.length_cons,
    List.length_drop] at hlen
  omega

/-- Substitution always replaces a character by a different one, so it
cannot reproduce the seed. -/
theorem seed_not_substitution (L S : List Char) :
    mkv L S ∉ character_substitution L S := by
  intro h
  simp only [character_substitution, List.mem_flatMap, List.mem_range] at h
  obtain ⟨i, hi, hx⟩ := h
  cases hassoc : assoc ((L.getD i ' ').toLower) CHAR_SUBSTITUTIONS with
  | none => rw [hassoc] at hx; simp at hx
  | some reps =>
    rw [hassoc] at hx
    simp only [List.mem_map] at hx
    obtain ⟨r, hr, heq⟩ := hx
    exact replace_at_ne hi (table_replacement_ne char_subs_ne hi hassoc hr)
      (mkv_same_eq heq)

/-- Insertion lengthens the label, so it cannot reproduce the seed. -/
theorem seed_not_insertion (L S : List Char) : mkv L S ∉ character_insertion L S := by
  intro h
  simp only [character_insertion, List.mem_flatMap, List.mem_range,
    List.mem_filterMap] at h
  obtain ⟨i, hi, c, hc, hf⟩ := h
  split at hf
  · have hv := mkv_same_eq (Option.some.inj hf)
    have hlen := congrArg List.length hv
    simp only [List.length_append, List.length_take, List.length_cons,
      List.length_drop] at hlen
    omega
  · exact Option.noConfusion hf

/-- Transposition reproduces the label only when the swapped characters
are equal, which the adjacent-distinct hypothesis rules out. -/
theorem seed_not_swap (L S : List Char)
    (hadj : ∀ i < L.length - 1, L.getD i ' ' ≠ L.getD (i + 1) ' ') :
    mkv L S ∉ character_swap L S := by
  intro h
  simp only [character_swap, List.mem_map, List.mem_range] at h
  obtain ⟨i, hi, hf⟩ := h
  have hi1 : i + 1 < L.length := by omega
  have hi0 : i < L.length := by omega
  have hv := mkv_same_eq hf
  rw [getD_eq_of_lt ' ' hi1, getD_eq_of_lt ' ' hi0] at hv
  have h2 := (List.append_right_inj (L.take i)).mp (hv.trans (decomp_at2 hi1))
  have hne := hadj i (by omega)
  rw [getD_eq_of_lt ' ' hi0, getD_eq_of_lt ' ' hi1] at hne
  exact hne ((List.cons_eq_cons.mp h2).1).symm

/-- Keyboard adjacency always replaces a character by a different one. -/
theorem seed_not_keyboard (L S : List Char) : mkv L S ∉ keyboard_typos L S := by
  intro h
  simp only [keyboard_typos, List.mem_flatMap, List.mem_range] at h
  obtain ⟨i, hi, hx⟩ := h
  cases hassoc : assoc ((L.getD i ' ').toLower) KEYBOARD_ADJACENCY with
  | none => rw [hassoc] at hx; simp at hx
  | some reps =>
    rw [hassoc] at hx
    simp only [List.mem_map] at hx
    obtain ⟨r, hr, heq⟩ := hx
    exact replace_at_ne hi (table_replacement_ne keyboard_ne hi hassoc hr)
      (mkv_same_eq heq)

/-- Homograph substitution always replaces a character by a different one. -/
theorem seed_not_homograph (L S : List Char) : mkv L S ∉ homograph_variants L S := by
  intro h
  simp only [homograph_variants, List.mem_flatMap, List.mem_range] at h
  obtain ⟨i, hi, hx⟩ := h
  cases hassoc : assoc ((L.getD i ' ').toLower) TYPO_HOMOGRAPHS with
  | none => rw [hassoc] at hx; simp at hx
  | some reps =>
    rw [hassoc] at hx
    simp only [List.mem_map] at hx
    obtain ⟨r, hr, heq⟩ := hx
    exact replace_at_ne hi (table_replacement_ne typo_homograph_ne hi hassoc hr)
      (mkv_same_eq heq)

/-- TLD variation reproduces the seed only by re-using the seed's own
suffix, which the hypothesis rules out. -/
theorem seed_not_tld (L S : List Char) (hS : ∀ u ∈ COMMON_TLDS, u.data ≠ S) :
    mkv L S ∉ tld_variations L := by
  intro h
  simp only [tld_variations, List.mem_map] at h
  obtain ⟨t, ht, hf⟩ := h
  exact hS t ht (mkv_tld_eq hf)

/-- Hyphenation lengthens the label, so it cannot reproduce the seed. -/
theorem seed_not_hyphenation (L S : List Char) : mkv L S ∉ hyphenation L S := by
  intro h
  simp only [hyphenation, List.mem_map] at h
  obtain ⟨i, hi, hf⟩ := h
  have hv := mkv_same_eq hf
  have hlen := congrArg List.length hv
  simp only [List.length_append, List.length_take, List.length_cons,
    List.length_drop] at hlen
  have hilt : i < L.length := List.mem_range.mp (List.mem_of_mem_drop hi)
  omega

/-- Joining a non-trivial prefix/suffix combination strictly lengthens
the label. -/
theorem join_affix_longer (p s d : List Char) (h : (p.isEmpty && s.isEmpty) = false) :
    d.length < (join_affix p d s).length := by
  rcases p with - | ⟨a, p⟩ <;> rcases s with - | ⟨b, s⟩ <;>
    rcases d with - | ⟨c, d⟩ <;>
    simp_all [join_affix, List.intersperse, List.filter] <;> omega

/-- Prefix/suffix joining lengthens the label, so it cannot reproduce
the seed. -/
theorem seed_not_affix (L S : List Char) : mkv L S ∉ affix_variants L S := by
  intro h
  simp only [affix_variants, List.mem_flatMap, List.mem_filterMap] at h
  obtain ⟨p, hp, s, hs, hf⟩ := h
  split at hf
  · exact Option.noConfusion hf
  · next hcond =>
    have hv := mkv_same_eq (Option.some.inj hf)
    have hlen := congrArg List.length hv
    have hcond' : (p.isEmpty && s.isEmpty) = false := by
      rcases Bool.dichotomy (p.isEmpty && s.isEmpty) with hb | hb
      · exact hb
      · exact absurd hb hcond
    have hlonger := join_affix_longer p s L hcond'
    rw [hv] at hlonger
    omega

/-- None of the ten operators reproduces `label ++ "." ++ suffix` when
the suffix is outside the common-TLD list and the label has no equal
adjacent characters. -/
theorem seed_not_in_union (sub L S : List Char)
    (hS : ∀ u ∈ COMMON_TLDS, u.data ≠ S)
    (hadj : ∀ i < L.length - 1, L.getD i ' ' ≠ L.getD (i + 1) ' ') :
    mkv L S ∉ variants_union ⟨sub, L, S⟩ := by
  intro h
  simp only [variants_union, List.mem_append] at h
  rcases h with ((((((((h | h) | h) | h) | h) | h) | h) | h) | h) | h
  exacts [seed_not_omission L S h, seed_not_repetition L S h,
    seed_not_substitution L S h, seed_not_insertion L S h,
    seed_not_swap L S hadj h, seed_not_keyboard L S h,
    seed_not_homograph L S h, seed_not_tld L S hS h,
    seed_not_hyphenation L S h, seed_not_affix L S h]

/-- Claim C2 as amended: for a seed splitting as `label.suffix` (no
subdomain), `generate_all_variants` never returns the seed itself,
provided the seed's suffix is not in `COMMON_TLDS` (otherwise TLD
variation regenerates it) and no two adjacent characters of the label
are equal (otherwise transposition regenerates it).  `enum` ranges over
every possible iteration order of the variant set. -/
theorem C2_seed_not_returned (sub L S : List Char) (maxVariants : Nat)
    (enum : List (List Char))
    (henum : ∀ x, x ∈ enum ↔ x ∈ variants_union ⟨sub, L, S⟩)
    (hS : ∀ u ∈ COMMON_TLDS, u.data ≠ S)
    (hadj : ∀ i < L.length - 1, L.getD i ' ' ≠ L.getD (i + 1) ' ') :
    mkv L S ∉ generate_all_variants maxVariants enum := by
  intro h
  have hmem : mkv L S ∈ enum := by
    unfold generate_all_variants at h
    split at h
    · exact List.mem_of_mem_take h
    · exact h
  exact seed_not_in_union sub L S hS hadj ((henum _).mp hmem)

/-- Witness for C2 (amended) at the seed `acmebank.gov` (suffix outside
the TLD list, label without equal adjacent characters), cap 1000,
canonical enumeration. -/
theorem C2_witness :
    mkv "acmebank".data "gov".data ∉
      generate_all_variants 1000 (all_variants ⟨[], "acmebank".data, "gov".data⟩) :=
  C2_seed_not_returned [] "acmebank".data "gov".data 1000 _
    (fun _ => List.mem_dedup) (by decide) (by decide)

set_option maxRecDepth 40000 in
/-- Claim C2, counterexample: for the seed `acmebank.com` (cap 1000, no
truncation) the returned set contains the seed itself — TLD variation
re-suffixes the unchanged label `acmebank` with `com`. -/
theorem C2_counterexample :
    (∀ x, x ∈ all_variants acmeParts ↔ x ∈ variants_union acmeParts) ∧
    (all_variants acmeParts).Nodup ∧
    "acmebank.com".data ∈ generate_all_variants 1000 (all_variants acmeParts) := by
  refine ⟨fun _ => List.mem_dedup, List.nodup_dedup _, ?_⟩
  have hlen : (all_variants acmeParts).length ≤ (variants_union acmeParts).length :=
    (List.dedup_sublist _).length_le
  have hsize : (variants_union acmeParts).length ≤ 1000 := by decide
  unfold generate_all_variants
  rw [if_neg (by omega)]
  exact List.mem_dedup.mpr (by decide)

/-- Claim C7, counterexample: the insertion operator does not
short-circuit at the cap.  In `generate_all_variants("a.com", 5)` the
call `_character_insertion("a", "com")` produces 71 distinct variants,
far past the cap of 5 — the function never sees `max_variants`. -/
theorem C7_counterexample :
    5 < ((character_insertion "a".data "com".data).dedup).length := by
  decide

/-- Claim C7 as amended: the insertion operator unconditionally
generates every letter/digit insertion at every position (bounded only
by the 63-character label limit); the `max_variants` cap is enforced
solely by the final truncation of `generate_all_variants`, which still
bounds the overall result. -/
theorem C7_insertion_uncapped (domain tld : List Char) :
    (∀ x, x ∈ character_insertion domain tld ↔
      ∃ i ≤ domain.length, ∃ c ∈ INSERT_CHARS,
        (domain.take i ++ c :: domain.drop i).length ≤ 63 ∧
        x = mkv (domain.take i ++ c :: domain.drop i) tld) ∧
    (∀ maxVariants enum,
      (generate_all_variants maxVariants enum).length ≤ maxVariants) := by
  constructor
  · intro x
    simp only [character_insertion, List.mem_flatMap, List.mem_range,
      List.mem_filterMap]
    constructor
    · rintro ⟨i, hi, c, hc, hf⟩
      split at hf
      · next hlen => exact ⟨i, by omega, c, hc, hlen, (Option.some.inj hf).symm⟩
      · exact Option.noConfusion hf
    · rintro ⟨i, hi, c, hc, hlen, rfl⟩
      exact ⟨i, by omega, c, hc, by rw [if_pos hlen]⟩
  · intro maxVariants enum
    unfold generate_all_variants
    split
    · simpa [List.length_take] using Nat.min_le_left maxVariants enum.length
    · omega

/-- A list with two distinct members has more than one element. -/
theorem one_lt_length_of_mem_ne {α : Type} {x y : α} {l : List α}
    (hx : x ∈ l) (hy : y ∈ l) (hne : x ≠ y) : 1 < l.length := by
  cases l with
  | nil => simp at hx
  | cons a t =>
    cases t with
    | nil =>
      simp only [List.mem_singleton] at hx hy
      exact absurd (hx.trans hy.symm) hne
    | cons b t2 =>
      simp only [List.length_cons]
      omega

/-- Taking one element of a nonempty list yields its head. -/
theorem take_one_head {α : Type} (l : List α) (h : l ≠ []) :
    l.take 1 = [l.head h] := by
  cases l with
  | nil => exact absurd rfl h
  | cons b t => simp

/-- A duplicate-free list with more than one element starts and ends
with different elements, so truncating it to one element gives different
results for the forward and the reversed enumeration. -/
theorem take_one_reverse_diff {α : Type} {l : List α} (hnd : l.Nodup)
    (hlen : 1 < l.length) :
    ∃ x, x ∈ l.take 1 ∧ x ∉ l.reverse.take 1 := by
  cases l with
  | nil => simp at hlen
  | cons a rest =>
    have hrest : rest ≠ [] := by
      intro hr
      rw [hr] at hlen
      simp at hlen
    refine ⟨a, by simp, ?_⟩
    have hrev_ne : (a :: rest).reverse ≠ [] := by simp
    rw [take_one_head _ hrev_ne, List.head_reverse]
    simp only [List.mem_singleton]
    rw [List.getLast_cons hrest]
    intro hEq
    have hmem := List.getLast_mem hrest
    rw [← hEq] at hmem
    exact (List.nodup_cons.mp hnd).1 hmem

/-- Claim C8, counterexample: with truncation (cap 1, seed `x.com`
whose variant set has more than one element), two legal iteration
orders of the same set — the canonical one and its reverse — make
`generate_all_variants` return different sets. -/
theorem C8_counterexample :
    (∀ x, x ∈ all_variants xParts ↔ x ∈ variants_union xParts) ∧
    (all_variants xParts).Nodup ∧
    (∀ x, x ∈ (all_variants xParts).reverse ↔ x ∈ variants_union xParts) ∧
    ((all_variants xParts).reverse).Nodup ∧
    ∃ x, x ∈ generate_all_variants 1 (all_variants xParts) ∧
      x ∉ generate_all_variants 1 ((all_variants xParts).reverse) := by
  have hnd : (all_variants xParts).Nodup := List.nodup_dedup _
  have h2 : 1 < (all_variants xParts).length := by
    have hm1 : mkv "xx".data "com".data ∈ all_variants xParts :=
      List.mem_dedup.mpr (by decide)
    have hm2 : mkv "x".data "net".data ∈ all_variants xParts :=
      List.mem_dedup.mpr (by decide)
    exact one_lt_length_of_mem_ne hm1 hm2 (by decide)
  obtain ⟨x, hx1, hx2⟩ := take_one_reverse_diff hnd h2
  refine ⟨fun _ => List.mem_dedup, hnd,
    fun _ => List.mem_reverse.trans List.mem_dedup,
    List.nodup_reverse.mpr hnd, x, ?_, ?_⟩
  · unfold generate_all_variants
    rw [if_pos h2]
    exact hx1
  · unfold generate_all_variants
    rw [if_pos (by rw [List.length_reverse]; exact h2)]
    exact hx2

/-- Claim C8 as amended: `generate_all_variants` is deterministic in
content whenever the variant set fits under the cap — any two
enumerations of the set produce outputs with the same members; when
truncation occurs the retained subset depends on the incidental
iteration order (see the counterexample). -/
theorem C8_deterministic_without_truncation (parts : DomainParts)
    (maxVariants : Nat) (e1 e2 : List (List Char))
    (h1n : e1.Nodup) (h1m : ∀ x, x ∈ e1 ↔ x ∈ variants_union parts)
    (h2n : e2.Nodup) (h2m : ∀ x, x ∈ e2 ↔ x ∈ variants_union parts)
    (hfit : e1.length ≤ maxVariants) :
    ∀ x, x ∈ generate_all_variants maxVariants e1 ↔
      x ∈ generate_all_variants maxVariants e2 := by
  have hset : e1.toFinset = e2.toFinset := by
    ext a
    simp only [List.mem_toFinset]
    rw [h1m, h2m]
  have hlen : e2.length = e1.length := by
    rw [← List.toFinset_card_of_nodup h1n, ← List.toFinset_card_of_nodup h2n, hset]
  intro x
  unfold generate_all_variants
  rw [if_neg (by omega), if_neg (by omega)]
  rw [h1m, h2m]

set_option maxRecDepth 40000 in
/-- Witness for C8 (amended) at the seed `x.com`, cap 1000 (no
truncation), canonical and reversed enumerations, tested on the variant
`xx.com`. -/
theorem C8_witness :
    mkv "xx".data "com".data ∈ generate_all_variants 1000 (all_variants xParts) ↔
    mkv "xx".data "com".data ∈
      generate_all_variants 1000 ((all_variants xParts).reverse) :=
  C8_deterministic_without_truncation xParts 1000 _ _
    (List.nodup_dedup _) (fun _ => List.mem_dedup)
    (List.nodup_reverse.mpr (List.nodup_dedup _))
    (fun _ => List.mem_reverse.trans List.mem_dedup)
    (le_trans (List.dedup_sublist _).length_le (by decide))
    (mkv "xx".data "com".data)

/-- Claim C1: `WHOISCrawler.crawl` never returns a candidate whose
`domain_name` equals the target's `primary_domain`, one of its
`additional_domains`, or a subdomain of any of them.  The claim holds —
vacuously: `_get_whois_data` always returns `None` (its `try` block
starts with `time.sleep(1.2)` while the module never imports `time`, so
every call raises `NameError` caught by the blanket `except`), hence
`crawl` returns the empty list for every target, every DNS environment
and every variant-set iteration order.  In particular the Acme Bank
target never yields `acmebank.com` or `secure.acmebank.com`. -/
theorem C1_whois_never_emits_legitimate :
    (∀ env target enum, whois_crawl env target enum = []) ∧
    (∀ env target enum, ∀ c ∈ whois_crawl env target enum,
      is_legitimate_domain c.domain_name
        (target.primary_domain :: target.additional_domains) = false) ∧
    (∀ env enum,
      "acmebank.com".data ∉
        (whois_crawl env acmeTarget enum).map Candidate.domain_name ∧
      "secure.acmebank.com".data ∉
        (whois_crawl env acmeTarget enum).map Candidate.domain_name) := by
  have hnil : ∀ env target enum, whois_crawl env target enum = [] := by
    intro env target enum
    rw [whois_crawl]
    rw [List.filterMap_eq_nil]
    intro v hv
    rcases Bool.dichotomy (env.domain_exists v) with h | h <;>
      simp [h, whois_get_whois_data]
  refine ⟨hnil, ?_, ?_⟩
  · intro env target enum c hc
    rw [hnil env target enum] at hc
    exact absurd hc (List.not_mem_nil c)
  · intro env enum
    rw [hnil env acmeTarget enum]
    simp


/-! ### Validator grammar lemmas (claim C10) -/

/-- `splitDots` never returns the empty list. -/
theorem splitDots_ne_nil : ∀ s : List Char, splitDots s ≠ []
  | [] => by simp [splitDots]
  | c :: rest => by
    rw [splitDots]
    split
    · simp
    · split <;> simp

/-- Every character of a string is a dot or lies in one of its
dot-separated parts. -/
theorem mem_splitDots {c : Char} :
    ∀ {s : List Char}, c ∈ s → c = '.' ∨ ∃ p ∈ splitDots s, c ∈ p := by
  intro s
  induction s with
  | nil => intro h; simp at h
  | cons a t ih =>
    intro h
    rw [List.mem_cons] at h
    by_cases ha : a = '.'
    · rcases h with rfl | hmem
      · exact Or.inl ha
      · rcases ih hmem with hdot | ⟨p, hp, hcp⟩
        · exact Or.inl hdot
        · refine Or.inr ⟨p, ?_, hcp⟩
          rw [splitDots, if_pos ha]
          exact List.mem_cons_of_mem _ hp
    · obtain ⟨p0, ps, hsp⟩ : ∃ p0 ps, splitDots t = p0 :: ps := by
        cases hq : splitDots t with
        | nil => exact absurd hq (splitDots_ne_nil t)
        | cons p0 ps => exact ⟨p0, ps, rfl⟩
      have hform : splitDots (a :: t) = (a :: p0) :: ps := by
        rw [splitDots, if_neg ha, hsp]
      rcases h with rfl | hmem
      · exact Or.inr ⟨c :: p0, by rw [hform]; exact List.mem_cons_self _ _,
          List.mem_cons_self _ _⟩
      · rcases ih hmem with hdot | ⟨p, hp, hcp⟩
        · exact Or.inl hdot
        · rw [hsp, List.mem_cons] at hp
          rcases hp with rfl | hp2
          · exact Or.inr ⟨a :: p, by rw [hform]; exact List.mem_cons_self _ _,
              List.mem_cons_of_mem _ hcp⟩
          · exact Or.inr ⟨p, by rw [hform]; exact List.mem_cons_of_mem _ hp2, hcp⟩

/-- Every character of a regex label is alphanumeric or a hyphen. -/
theorem isLabel_chars {l : List Char} (h : isLabel l = true) :
    ∀ c ∈ l, (c.isAlphanum || c == '-') = true := by
  intro c hc
  cases l with
  | nil => simp at hc
  | cons a t =>
    rw [isLabel] at h
    cases t with
    | nil =>
      rw [List.mem_singleton] at hc
      subst hc
      rw [if_pos (by simp)] at h
      rw [h]
      simp
    | cons b t2 =>
      rw [if_neg (by simp)] at h
      rw [Bool.and_eq_true, Bool.and_eq_true, Bool.and_eq_true] at h
      obtain ⟨⟨⟨ha, -⟩, hmid⟩, hlast⟩ := h
      have hne : b :: t2 ≠ [] := List.cons_ne_nil b t2
      rcases List.mem_cons.mp hc with rfl | hct
      · rw [ha]; simp
      · have hdecomp := List.dropLast_concat_getLast hne
        rw [← hdecomp, List.mem_append] at hct
        rcases hct with hdrop | hsing
        · have := List.all_eq_true.mp hmid c hdrop
          simpa using this
        · rw [List.mem_singleton] at hsing
          subst hsing
          have hld : (b :: t2).getLastD ' ' = (b :: t2).getLast hne := by
            conv_lhs => rw [← hdecomp]
            rw [List.getLastD_concat]
          rw [← hld, hlast]
          simp

/-- Every character of the regex TLD is an ASCII letter. -/
theorem isTldPart_chars {l : List Char} (h : isTldPart l = true) :
    ∀ c ∈ l, c.isAlpha = true := by
  rw [isTldPart, Bool.and_eq_true, Bool.and_eq_true] at h
  exact fun c hc => List.all_eq_true.mp h.2 c hc

/-- Every character of a string matching the domain regex is an ASCII
letter, digit, hyphen or dot. -/
theorem regex_chars {s : List Char} (h : domain_regex_matches s = true) :
    ∀ c ∈ s, is_grammar_char c = true := by
  intro c hc
  rw [domain_regex_matches, Bool.and_eq_true, Bool.and_eq_true] at h
  obtain ⟨⟨-, hlabels⟩, htld⟩ := h
  rcases mem_splitDots hc with rfl | ⟨p, hp, hcp⟩
  · decide
  · have hne := splitDots_ne_nil s
    have hdecomp := List.dropLast_concat_getLast hne
    rw [← hdecomp, List.mem_append] at hp
    rcases hp with hdrop | hsing
    · have hlab := List.all_eq_true.mp hlabels p hdrop
      have hgc : c.isAlphanum = true ∨ (c == '-') = true := by
        simpa using isLabel_chars hlab c hcp
      rw [is_grammar_char]
      rcases hgc with h1 | h1 <;> simp [h1]
    · rw [List.mem_singleton] at hsing
      subst hsing
      have hld : (splitDots s).getLastD [] = (splitDots s).getLast hne := by
        conv_lhs => rw [← hdecomp]
        rw [List.getLastD_concat]
      rw [hld] at htld
      have halpha := isTldPart_chars htld c hcp
      rw [is_grammar_char]
      simp [Char.isAlphanum, halpha]

/-- `Char.ofNat` of a shifted uppercase letter is a lowercase letter,
never a newline. -/
theorem ofNat_shift_ne_newline : ∀ n < 91, 65 ≤ n → Char.ofNat (n + 32) ≠ '\n' := by
  decide

/-- Lowercasing a non-whitespace character cannot produce a newline. -/
theorem toLower_ne_newline {c : Char} (h : isPySpace c = false) :
    c.toLower ≠ '\n' := by
  simp only [Char.toLower]
  split
  · next hcond => exact ofNat_shift_ne_newline c.toNat (by omega) hcond.1
  · intro hc
    rw [hc] at h
    exact absurd h (by decide)

/-- The head of `dropWhile` fails the predicate. -/
theorem head?_dropWhile_false {f : Char → Bool} :
    ∀ (l : List Char) {c : Char}, (l.dropWhile f).head? = some c → f c = false := by
  intro l
  induction l with
  | nil => intro c h; simp [List.dropWhile] at h
  | cons a t ih =>
    intro c h
    rw [List.dropWhile] at h
    rcases Bool.dichotomy (f a) with hfa | hfa
    · rw [hfa] at h
      simp only [List.head?_cons, Option.some.injEq] at h
      rw [← h]
      exact hfa
    · rw [hfa] at h
      exact ih h

/-- The stripped string never ends in whitespace. -/
theorem pyStrip_last {s : List Char} {c : Char}
    (h : (pyStrip s).getLast? = some c) : isPySpace c = false := by
  rw [pyStrip, List.getLast?_reverse] at h
  exact head?_dropWhile_false _ h

/-- A normalized domain name never ends in a newline, so the trailing
newline tolerated by `re.match`'s `$` anchor is unreachable through
`save_domain`. -/
theorem normalize_no_trailing_newline (s : List Char) :
    (normalize_domain s).getLastD ' ' ≠ '\n' := by
  rw [normalize_domain, pyLower, List.getLastD_eq_getLast?, List.getLast?_map]
  cases hgl : (pyStrip s).getLast? with
  | none => decide
  | some c => exact toLower_ne_newline (pyStrip_last hgl)

/-- A valid normalized name matches the regex body itself (not via the
trailing-newline escape). -/
theorem valid_normalized_matches {input : List Char}
    (h : is_valid_domain (normalize_domain input) = true) :
    domain_regex_matches (normalize_domain input) = true := by
  rw [is_valid_domain, Bool.and_eq_true, Bool.and_eq_true, Bool.or_eq_true] at h
  obtain ⟨⟨-, -⟩, hmatch | hnl⟩ := h
  · exact hmatch
  · rw [Bool.and_eq_true] at hnl
    have hlast := hnl.1
    rw [beq_iff_eq] at hlast
    exact absurd hlast (normalize_no_trailing_newline input)

/-- ASCII letters, digits, hyphen and dot all have code points below 128. -/
theorem grammar_char_ascii {c : Char} (h : is_grammar_char c = true) :
    c.toNat < 128 := by
  rw [is_grammar_char, Bool.or_eq_true, Bool.or_eq_true] at h
  rcases h with (halnum | hdash) | hdot
  · rw [Char.isAlphanum, Bool.or_eq_true, Char.isAlpha, Bool.or_eq_true] at halnum
    rcases halnum with (hup | hlo) | hdig
    · rw [Char.isUpper, Bool.and_eq_true] at hup
      have hle := @UInt32.toNat_le_of_le c.val 90 (by norm_num [UInt32.size])
        (of_decide_eq_true hup.2)
      have hbr : c.toNat = c.val.toNat := rfl
      omega
    · rw [Char.isLower, Bool.and_eq_true] at hlo
      have hle := @UInt32.toNat_le_of_le c.val 122 (by norm_num [UInt32.size])
        (of_decide_eq_true hlo.2)
      have hbr : c.toNat = c.val.toNat := rfl
      omega
    · rw [Char.isDigit, Bool.and_eq_true] at hdig
      have hle := @UInt32.toNat_le_of_le c.val 57 (by norm_num [UInt32.size])
        (of_decide_eq_true hdig.2)
      have hbr : c.toNat = c.val.toNat := rfl
      omega
  · rw [beq_iff_eq] at hdash
    subst hdash
    decide
  · rw [beq_iff_eq] at hdot
    subst hdot
    decide


/-- Every name a sequence of saves adds to a store satisfying the
validator grammar keeps the store satisfying it: inserted names are
normalized and validated, and normalization makes the regex's
trailing-newline escape unreachable. -/
theorem save_all_grammar (inputs : List (List Char)) :
    ∀ store, (∀ n ∈ store, is_valid_domain n = true ∧ domain_regex_matches n = true) →
    ∀ n ∈ save_all store inputs,
      is_valid_domain n = true ∧ domain_regex_matches n = true := by
  induction inputs with
  | nil =>
    intro store hstore n hn
    exact hstore n hn
  | cons d ds ih =>
    intro store hstore
    rw [save_all]
    apply ih
    intro n hn
    rw [save_domain] at hn
    split at hn
    · exact hstore n hn
    · next hvalid =>
      split at hn
      · exact hstore n hn
      · rw [List.mem_append] at hn
        rcases hn with hold | hnew
        · exact hstore n hold
        · rw [List.mem_singleton] at hnew
          subst hnew
          have hv : is_valid_domain (normalize_domain d) = true := by
            rcases Bool.dichotomy (is_valid_domain (normalize_domain d)) with hb | hb
            · exact absurd (by rw [hb]; rfl) hvalid
            · exact hb
          exact ⟨hv, valid_normalized_matches hv⟩

/-- Claim C10 as amended: every name persisted by `save_domain`
(starting from an empty store) is a valid domain whose characters are
all ASCII letters, digits, hyphens or dots; a candidate whose normalized
name contains any non-ASCII character is rejected and the store is left
unchanged.  (Not every IDN-generator variant is such a candidate — see
the counterexample.) -/
theorem C10_persisted_names_ascii :
    (∀ inputs name, name ∈ save_all [] inputs →
      is_valid_domain name = true ∧
      ∀ c ∈ name, is_grammar_char c = true ∧ c.toNat < 128) ∧
    (∀ store input, (∃ c ∈ normalize_domain input, 128 ≤ c.toNat) →
      save_domain store input = (false, store)) := by
  constructor
  · intro inputs name hname
    have hstore : ∀ n ∈ ([] : List (List Char)),
        is_valid_domain n = true ∧ domain_regex_matches n = true := by simp
    obtain ⟨hv, hr⟩ := save_all_grammar inputs [] hstore name hname
    refine ⟨hv, fun c hc => ?_⟩
    have hg := regex_chars hr c hc
    exact ⟨hg, grammar_char_ascii hg⟩
  · intro store input hex
    obtain ⟨c, hc, hge⟩ := hex
    have hinvalid : is_valid_domain (normalize_domain input) = false := by
      rcases Bool.dichotomy (is_valid_domain (normalize_domain input)) with hb | hb
      · exact hb
      · exfalso
        have hr := valid_normalized_matches hb
        have := grammar_char_ascii (regex_chars hr c hc)
        omega
    rw [save_domain, hinvalid]
    rfl

/-- Witness for C10 (amended): `paypal.com` round-trips through a save
into the empty store and is pure ASCII; the Cyrillic-а homograph
`pаypal.com` is rejected and the store stays empty. -/
theorem C10_witness :
    (is_valid_domain "paypal.com".data = true ∧
      ∀ c ∈ "paypal.com".data, is_grammar_char c = true ∧ c.toNat < 128) ∧
    save_domain [] "pаypal.com".data = (false, []) :=
  ⟨C10_persisted_names_ascii.1 ["paypal.com".data] "paypal.com".data (by decide),
   C10_persisted_names_ascii.2 [] "pаypal.com".data (by decide)⟩

/-- Claim C10, counterexample to "every homograph/IDN variant is
rejected": the IDN confusable table maps `f` and `m` to themselves, so
`generate_idn_variants("fm.com")` contains the pure-ASCII string
`fm.com`, which `save_domain` accepts and persists. -/
theorem C10_counterexample :
    "fm.com".data ∈ generate_idn_variants "fm.com".data ∧
    (∀ c ∈ "fm.com".data, c.toNat < 128) ∧
    save_domain [] "fm.com".data = (true, ["fm.com".data]) := by
  refine ⟨by decide, by decide, by decide⟩

end Phish
